import Mathlib

/-!
Verification of the concurrent scan engine of `sub_crawler` (src/main.rs).

The embedding models the two core functions of the source:

* `check_subdomain` (src/main.rs lines 175-183): builds `subdomain ++ "." ++ domain`,
  resolves `hostname ++ ":80"` through the host resolver, returns `some hostname`
  on `Ok` and `none` on `Err`.  The resolver is abstracted as an explicit oracle
  `String → Option (List String)` (`some addrs` models `Ok(addresses)`, `none`
  models `Err(_)`).

* `scan_subdomains` (src/main.rs lines 185-230): computes
  `chunk_size = (len + max_threads - 1) / max_threads`, splits the wordlist with
  `slice::chunks`, spawns one thread per chunk, each thread inserts discovered
  hostnames into a shared `HashSet` and bumps the progress bar by one per
  candidate, joins all threads, and finally sorts the collected set.

Panics of the Rust code are modelled as `none`:
`max_threads = 0` divides by zero when computing `chunk_size`, and an empty
wordlist yields `chunk_size = 0`, on which `slice::chunks` panics
("chunk size must be non-zero").

The shared `HashSet<String>` is modelled as a duplicate-free list with
insert-if-absent (`hashInsert`); its iteration order is irrelevant because the
only observation of it is the final sorted vector.  Thread interleavings are
covered by `scanScheduleResult`: any interleaving of the per-worker candidate
sequences is a permutation of the concatenation of the chunks, and the result
is shown to be invariant under all permutations of the processing order.
-/

namespace SubCrawler

/-! ### Lexicographic order on strings

Rust sorts `Vec<String>` by `Ord` on `String`, which is lexicographic on the
byte sequence; UTF-8 preserves code-point order, so this is lexicographic
comparison of the scalar-value sequences, embedded here on `String.data`. -/

/-- Lexicographic less-or-equal on char lists, by code point. -/
def strLeb : List Char → List Char → Bool
  | [], _ => true
  | _ :: _, [] => false
  | a :: as, b :: bs =>
    if a.toNat < b.toNat then true
    else if b.toNat < a.toNat then false
    else strLeb as bs

/-- Lexicographic less-or-equal on strings (Rust `String: Ord`). -/
def strLe (a b : String) : Bool :=
  strLeb a.data b.data

theorem strLeb_cons_iff (a b : Char) (as bs : List Char) :
    strLeb (a :: as) (b :: bs) = true ↔
      a.toNat < b.toNat ∨ (a.toNat = b.toNat ∧ strLeb as bs = true) := by
  simp only [strLeb]
  by_cases h1 : a.toNat < b.toNat
  · simp [h1]
  · by_cases h2 : b.toNat < a.toNat
    · simp [h1, h2, show a.toNat ≠ b.toNat by omega]
    · simp [h1, h2, show a.toNat = b.toNat by omega]

theorem strLeb_total : ∀ as bs : List Char, strLeb as bs = true ∨ strLeb bs as = true := by
  intro as
  induction as with
  | nil => intro bs; left; rfl
  | cons a as ih =>
    intro bs
    cases bs with
    | nil => right; rfl
    | cons b bs =>
      rw [strLeb_cons_iff, strLeb_cons_iff]
      rcases Nat.lt_trichotomy a.toNat b.toNat with h | h | h
      · exact Or.inl (Or.inl h)
      · rcases ih bs with hh | hh
        · exact Or.inl (Or.inr ⟨h, hh⟩)
        · exact Or.inr (Or.inr ⟨h.symm, hh⟩)
      · exact Or.inr (Or.inl h)

theorem strLeb_trans :
    ∀ as bs cs : List Char,
      strLeb as bs = true → strLeb bs cs = true → strLeb as cs = true := by
  intro as
  induction as with
  | nil => intro bs cs _ _; rfl
  | cons a as ih =>
    intro bs cs hab hbc
    cases bs with
    | nil => simp [strLeb] at hab
    | cons b bs =>
      cases cs with
      | nil => simp [strLeb] at hbc
      | cons c cs =>
        rw [strLeb_cons_iff] at hab hbc ⊢
        rcases hab with h | ⟨h, hab⟩
        · rcases hbc with h' | ⟨h', _⟩
          · exact Or.inl (by omega)
          · exact Or.inl (by omega)
        · rcases hbc with h' | ⟨h', hbc⟩
          · exact Or.inl (by omega)
          · exact Or.inr ⟨by omega, ih bs cs hab hbc⟩

theorem strLeb_antisymm :
    ∀ as bs : List Char, strLeb as bs = true → strLeb bs as = true → as = bs := by
  intro as
  induction as with
  | nil =>
    intro bs _ hba
    cases bs with
    | nil => rfl
    | cons b bs => simp [strLeb] at hba
  | cons a as ih =>
    intro bs hab hba
    cases bs with
    | nil => simp [strLeb] at hab
    | cons b bs =>
      rw [strLeb_cons_iff] at hab hba
      rcases hab with h | ⟨h, hab⟩
      · rcases hba with h' | ⟨h', _⟩ <;> omega
      · rcases hba with h' | ⟨h', hba⟩
        · omega
        · have hc : a = b := Char.ext (UInt32.ext h)
          rw [hc, ih bs hab hba]

theorem strLe_total (a b : String) : strLe a b = true ∨ strLe b a = true :=
  strLeb_total a.data b.data

theorem strLe_trans (a b c : String) :
    strLe a b = true → strLe b c = true → strLe a c = true :=
  strLeb_trans a.data b.data c.data

theorem strLe_antisymm (a b : String) :
    strLe a b = true → strLe b a = true → a = b := by
  intro hab hba
  cases a with
  | mk as =>
    cases b with
    | mk bs =>
      exact congrArg String.mk (strLeb_antisymm as bs hab hba)

instance : IsTotal String (fun a b => strLe a b = true) :=
  ⟨strLe_total⟩

instance : IsTrans String (fun a b => strLe a b = true) :=
  ⟨strLe_trans⟩

instance : IsAntisymm String (fun a b => strLe a b = true) :=
  ⟨strLe_antisymm⟩

/-- Model of `results.sort()` (src/main.rs line 228): sort lexicographically
ascending. -/
def sortDomains (l : List String) : List String :=
  List.insertionSort (fun a b => strLe a b = true) l

theorem sortDomains_perm (l : List String) : (sortDomains l).Perm l :=
  List.perm_insertionSort _ l

theorem sortDomains_sorted (l : List String) :
    List.Sorted (fun a b => strLe a b = true) (sortDomains l) :=
  List.sorted_insertionSort _ l

theorem sortDomains_eq_of_perm {l₁ l₂ : List String} (h : l₁.Perm l₂) :
    sortDomains l₁ = sortDomains l₂ :=
  List.eq_of_perm_of_sorted
    (((sortDomains_perm l₁).trans h).trans (sortDomains_perm l₂).symm)
    (sortDomains_sorted l₁) (sortDomains_sorted l₂)

/-! ### The resolution oracle and `check_subdomain` -/

/-- Abstraction of `ToSocketAddrs::to_socket_addrs`: maps the queried string
(`hostname ++ ":80"`) to `some addresses` for `Ok(addresses)` and `none` for
`Err(_)`.  Addresses are opaque strings. -/
def ResolveOracle : Type :=
  String → Option (List String)

/-- Embedding of `check_subdomain` (src/main.rs lines 175-183): build
`hostname = subdomain ++ "." ++ domain`, resolve `hostname ++ ":80"`, return
`some hostname` on `Ok(_)` and `none` on `Err(_)`. -/
def check_subdomain (resolve : ResolveOracle) (subdomain domain : String) : Option String :=
  let hostname := subdomain ++ "." ++ domain
  match resolve (hostname ++ ":80") with
  | some _ => some hostname
  | none => none

theorem check_subdomain_eq_some (resolve : ResolveOracle) (subdomain domain y : String) :
    check_subdomain resolve subdomain domain = some y ↔
      (resolve ((subdomain ++ "." ++ domain) ++ ":80")).isSome = true ∧
        y = subdomain ++ "." ++ domain := by
  unfold check_subdomain
  cases h : resolve ((subdomain ++ "." ++ domain) ++ ":80") with
  | none => simp [h]
  | some addrs => simp [h, eq_comm]

/-! ### Chunking (`slice::chunks`) -/

/-- Embedding of Rust `slice::chunks(k)`, specialised to `String` slices,
totalised by a fuel argument (`chunksFuel k l.length l` below): each step emits
`l.take k` and recurses on `l.drop k`.  Rust panics on `k = 0`
("chunk size must be non-zero"); `scan_subdomains` models that panic as `none`
before ever chunking, so with `1 ≤ k` and fuel `≥ l.length` the fuel-exhausted
branch is unreachable. -/
def chunksFuel (k : Nat) : Nat → List String → List (List String)
  | _, [] => []
  | 0, l => [l]
  | fuel + 1, x :: xs => ((x :: xs).take k) :: chunksFuel k fuel ((x :: xs).drop k)

/-- `wordlist.chunks(chunk_size)` as a list of chunks. -/
def listChunks (k : Nat) (l : List String) : List (List String) :=
  chunksFuel k l.length l

/-! ### Worker loop and shared state -/

/-- Shared mutable state of a scan: the `HashSet<String>` of found domains
(modelled as a duplicate-free list; iteration order is irrelevant because the
only observation is the final sorted vector) and the progress-bar position. -/
structure ScanState where
  found : List String
  progress : Nat
deriving DecidableEq

/-- `HashSet::insert`: add `x` unless already present. -/
def hashInsert (s : List String) (x : String) : List String :=
  if x ∈ s then s else s ++ [x]

/-- One iteration of the worker loop (src/main.rs lines 207-213): check the
candidate; on success insert the discovered domain into the shared set; in
either case increment the progress bar by one. -/
def workerStep (resolve : ResolveOracle) (domain : String) (st : ScanState)
    (subdomain : String) : ScanState :=
  match check_subdomain resolve subdomain domain with
  | some discovered => { found := hashInsert st.found discovered, progress := st.progress + 1 }
  | none => { found := st.found, progress := st.progress + 1 }

/-- The whole loop of one spawned worker over its chunk. -/
def runWorker (resolve : ResolveOracle) (domain : String) (chunk : List String)
    (st : ScanState) : ScanState :=
  chunk.foldl (workerStep resolve domain) st

/-! ### `scan_subdomains` -/

/-- Final shared state of `scan_subdomains` (src/main.rs lines 185-230) after
all workers have been joined, under the reference schedule that runs the chunks
one after the other (`scanScheduleResult` accounts for every other
interleaving).  `none` models the panics of the Rust code: `max_threads = 0`
divides by zero in `chunk_size = (len + max_threads - 1) / max_threads`, and an
empty wordlist gives `chunk_size = 0`, on which `slice::chunks` panics. -/
def scanFinalState (resolve : ResolveOracle) (domain : String) (wordlist : List String)
    (max_threads : Nat) : Option ScanState :=
  if max_threads = 0 then none
  else
    let chunk_size := (wordlist.length + max_threads - 1) / max_threads
    if chunk_size = 0 then none
    else
      some ((listChunks chunk_size wordlist).foldl
        (fun st chunk => runWorker resolve domain chunk st)
        { found := [], progress := 0 })

/-- Embedding of `scan_subdomains`: the sorted vector built from the shared
set (src/main.rs lines 227-229), or `none` where the Rust code panics. -/
def scan_subdomains (resolve : ResolveOracle) (domain : String) (wordlist : List String)
    (max_threads : Nat) : Option (List String) :=
  (scanFinalState resolve domain wordlist max_threads).map (fun st => sortDomains st.found)

/-- Result of a scan whose candidates are processed in the order given by
`schedule`.  A real run interleaves the per-worker sequences arbitrarily; every
such interleaving is a permutation of the concatenation of the chunks, so
invariance under all permutations of the schedule covers all interleavings. -/
def scanScheduleResult (resolve : ResolveOracle) (domain : String)
    (schedule : List String) : List String :=
  sortDomains ((schedule.foldl (workerStep resolve domain) { found := [], progress := 0 }).found)

/-- Number of worker threads spawned by `scan_subdomains`: one `thread::spawn`
and one pushed handle per chunk (src/main.rs lines 200-217); `none` models the
same panics as `scanFinalState`. -/
def spawnedThreads (wordlist : List String) (max_threads : Nat) : Option Nat :=
  if max_threads = 0 then none
  else
    let chunk_size := (wordlist.length + max_threads - 1) / max_threads
    if chunk_size = 0 then none
    else some (listChunks chunk_size wordlist).length

/-- Modelled from the spec (§8 Aggregation correctness): the expected output —
the lexicographically sorted, duplicate-free sequence of hostnames
`candidate ++ "." ++ domain` over the candidates the oracle marks resolvable. -/
def specExpected (resolve : ResolveOracle) (domain : String)
    (candidates : List String) : List String :=
  sortDomains
    (((candidates.filter
        (fun c => (resolve ((c ++ "." ++ domain) ++ ":80")).isSome)).map
      (fun c => c ++ "." ++ domain)).dedup)

/-! ### Concrete oracles for witnesses and counterexamples -/

/-- Test oracle: exactly `www.example.com` and `mail.example.com` resolve. -/
def testOracle : ResolveOracle :=
  fun s =>
    if s = "www.example.com:80" then some ["93.184.216.34:80"]
    else if s = "mail.example.com:80" then some ["93.184.216.34:80"]
    else none

/-- Test oracle: exactly `www.example.com` resolves. -/
def wwwOnlyOracle : ResolveOracle :=
  fun s =>
    if s = "www.example.com:80" then some ["93.184.216.34:80"] else none

/-! ### Properties of the chunking -/

theorem chunksFuel_flatten (k : Nat) (hk : 1 ≤ k) :
    ∀ fuel l, l.length ≤ fuel → (chunksFuel k fuel l).flatten = l := by
  intro fuel
  induction fuel with
  | zero =>
    intro l hl
    have : l = [] := List.eq_nil_of_length_eq_zero (Nat.le_zero.mp hl)
    subst this
    rfl
  | succ fuel ih =>
    intro l hl
    cases l with
    | nil => rfl
    | cons x xs =>
      simp only [chunksFuel, List.flatten_cons]
      rw [ih ((x :: xs).drop k) (by simp only [List.length_drop, List.length_cons] at hl ⊢; omega)]
      exact List.take_append_drop k (x :: xs)

theorem chunksFuel_mem (k : Nat) (hk : 1 ≤ k) :
    ∀ fuel l c, l.length ≤ fuel → c ∈ chunksFuel k fuel l → c ≠ [] ∧ c.length ≤ k := by
  intro fuel
  induction fuel with
  | zero =>
    intro l c hl hc
    have : l = [] := List.eq_nil_of_length_eq_zero (Nat.le_zero.mp hl)
    subst this
    simp [chunksFuel] at hc
  | succ fuel ih =>
    intro l c hl hc
    cases l with
    | nil => simp [chunksFuel] at hc
    | cons x xs =>
      simp only [chunksFuel, List.mem_cons] at hc
      rcases hc with hc | hc
      · subst hc
        constructor
        · have : 0 < ((x :: xs).take k).length := by
            rw [List.length_take]
            simp
            omega
          exact List.length_pos.mp this
        · rw [List.length_take]
          exact min_le_left _ _
      · exact ih ((x :: xs).drop k) c (by simp only [List.length_drop, List.length_cons] at hl ⊢; omega) hc

theorem chunksFuel_ne_nil (k fuel : Nat) (l : List String) (hl : l ≠ []) :
    chunksFuel k fuel l ≠ [] := by
  cases l with
  | nil => exact absurd rfl hl
  | cons x xs =>
    cases fuel with
    | zero => simp [chunksFuel]
    | succ fuel => simp [chunksFuel]

theorem chunksFuel_dropLast (k : Nat) (hk : 1 ≤ k) :
    ∀ fuel l c, l.length ≤ fuel → c ∈ (chunksFuel k fuel l).dropLast → c.length = k := by
  intro fuel
  induction fuel with
  | zero =>
    intro l c hl hc
    have : l = [] := List.eq_nil_of_length_eq_zero (Nat.le_zero.mp hl)
    subst this
    simp [chunksFuel] at hc
  | succ fuel ih =>
    intro l c hl hc
    cases l with
    | nil => simp [chunksFuel] at hc
    | cons x xs =>
      simp only [chunksFuel] at hc
      by_cases hdrop : (x :: xs).drop k = []
      · rw [hdrop] at hc
        simp [chunksFuel] at hc
      · rw [List.dropLast_cons_of_ne_nil (chunksFuel_ne_nil k fuel _ hdrop)] at hc
        rcases List.mem_cons.mp hc with hc | hc
        · subst hc
          rw [List.length_take]
          have : k < (x :: xs).length := by
            by_contra hcon
            exact hdrop (List.drop_eq_nil_iff.mpr (by omega))
          omega
        · exact ih ((x :: xs).drop k) c (by simp only [List.length_drop, List.length_cons] at hl ⊢; omega) hc

theorem ceilDiv_rec (n k : Nat) (hk : 1 ≤ k) (hn : 1 ≤ n) :
    (n - k + k - 1) / k + 1 = (n + k - 1) / k := by
  by_cases hle : n ≤ k
  · have h1 : n - k + k - 1 = k - 1 := by omega
    have h2 : n + k - 1 = (n - 1) + k := by omega
    rw [h1, h2, Nat.add_div_right _ (by omega)]
    rw [Nat.div_eq_of_lt (show k - 1 < k by omega), Nat.div_eq_of_lt (show n - 1 < k by omega)]
  · have h1 : n - k + k - 1 = (n - 1 - k) + k := by omega
    have h2 : n + k - 1 = ((n - 1 - k) + k) + k := by omega
    rw [h1, h2, Nat.add_div_right _ (by omega), Nat.add_div_right _ (by omega),
      Nat.add_div_right _ (by omega)]

theorem chunksFuel_length (k : Nat) (hk : 1 ≤ k) :
    ∀ fuel l, l.length ≤ fuel →
      (chunksFuel k fuel l).length = (l.length + k - 1) / k := by
  intro fuel
  induction fuel with
  | zero =>
    intro l hl
    have : l = [] := List.eq_nil_of_length_eq_zero (Nat.le_zero.mp hl)
    subst this
    simp [chunksFuel, Nat.div_eq_of_lt (show k - 1 < k by omega)]
  | succ fuel ih =>
    intro l hl
    cases l with
    | nil => simp [chunksFuel, Nat.div_eq_of_lt (show k - 1 < k by omega)]
    | cons x xs =>
      simp only [chunksFuel, List.length_cons]
      rw [ih ((x :: xs).drop k) (by simp only [List.length_drop, List.length_cons] at hl ⊢; omega)]
      rw [List.length_drop]
      have hx : (x :: xs).length = xs.length + 1 := rfl
      rw [hx]
      exact ceilDiv_rec (xs.length + 1) k hk (by omega)

theorem chunksFuel_count_le (k : Nat) (hk : 1 ≤ k) :
    ∀ fuel W l, l.length ≤ fuel → l.length ≤ k * W →
      (chunksFuel k fuel l).length ≤ W := by
  intro fuel
  induction fuel with
  | zero =>
    intro W l hl _
    have : l = [] := List.eq_nil_of_length_eq_zero (Nat.le_zero.mp hl)
    subst this
    simp [chunksFuel]
  | succ fuel ih =>
    intro W l hl hW
    cases l with
    | nil => simp [chunksFuel]
    | cons x xs =>
      cases W with
      | zero => simp at hW
      | succ W =>
        simp only [chunksFuel, List.length_cons, Nat.succ_le_succ_iff]
        apply ih W ((x :: xs).drop k)
        · simp only [List.length_drop, List.length_cons] at hl ⊢; omega
        · rw [List.length_drop]
          have hmul : k * (W + 1) = k * W + k := by ring
          have hx : (x :: xs).length = xs.length + 1 := rfl
          rw [hx] at hW ⊢
          omega

theorem le_mul_ceilDiv (N W : Nat) (hW : 1 ≤ W) : N ≤ W * ((N + W - 1) / W) := by
  have h1 := Nat.div_add_mod (N + W - 1) W
  have h2 : (N + W - 1) % W < W := Nat.mod_lt _ (by omega)
  generalize hq : (N + W - 1) / W = q at h1 ⊢
  generalize hr : (N + W - 1) % W = r at h1 h2
  generalize ha : W * q = a at h1 ⊢
  omega

theorem chunkSize_pos (N W : Nat) (hW : 1 ≤ W) (hN : 1 ≤ N) :
    1 ≤ (N + W - 1) / W := by
  rw [Nat.le_div_iff_mul_le (by omega)]
  omega

theorem chunkSize_eq_zero_iff (N W : Nat) (hW : 1 ≤ W) :
    (N + W - 1) / W = 0 ↔ N = 0 := by
  constructor
  · intro h
    by_contra hN
    have := chunkSize_pos N W hW (by omega)
    omega
  · intro h
    subst h
    exact Nat.div_eq_of_lt (by omega)

/-! ### Properties of the shared state and the worker loop -/

theorem mem_hashInsert (s : List String) (x y : String) :
    y ∈ hashInsert s x ↔ y ∈ s ∨ y = x := by
  unfold hashInsert
  by_cases h : x ∈ s
  · simp only [h, if_true]
    constructor
    · exact Or.inl
    · rintro (hy | rfl)
      · exact hy
      · exact h
  · simp [h]

theorem subset_hashInsert (s : List String) (x : String) : s ⊆ hashInsert s x := by
  intro y hy
  rw [mem_hashInsert]
  exact Or.inl hy

theorem nodup_hashInsert (s : List String) (x : String) (h : s.Nodup) :
    (hashInsert s x).Nodup := by
  unfold hashInsert
  by_cases hx : x ∈ s
  · simpa [hx]
  · simp [hx, List.nodup_append, h]

theorem workerStep_progress (resolve : ResolveOracle) (domain : String) (st : ScanState)
    (c : String) : (workerStep resolve domain st c).progress = st.progress + 1 := by
  unfold workerStep
  cases check_subdomain resolve c domain <;> rfl

theorem mem_workerStep_found (resolve : ResolveOracle) (domain : String) (st : ScanState)
    (c y : String) :
    y ∈ (workerStep resolve domain st c).found ↔
      y ∈ st.found ∨ check_subdomain resolve c domain = some y := by
  unfold workerStep
  cases h : check_subdomain resolve c domain with
  | none => simp [h]
  | some discovered => simp [h, mem_hashInsert, eq_comm]

theorem workerStep_found_subset (resolve : ResolveOracle) (domain : String) (st : ScanState)
    (c : String) : st.found ⊆ (workerStep resolve domain st c).found := by
  unfold workerStep
  cases check_subdomain resolve c domain with
  | none => exact fun y hy => hy
  | some discovered => exact subset_hashInsert st.found discovered

theorem workerStep_found_nodup (resolve : ResolveOracle) (domain : String) (st : ScanState)
    (c : String) (h : st.found.Nodup) : (workerStep resolve domain st c).found.Nodup := by
  unfold workerStep
  cases check_subdomain resolve c domain with
  | none => exact h
  | some discovered => exact nodup_hashInsert st.found discovered h

theorem foldl_workerStep_mem (resolve : ResolveOracle) (domain : String) :
    ∀ (l : List String) (st : ScanState) (y : String),
      y ∈ (l.foldl (workerStep resolve domain) st).found ↔
        y ∈ st.found ∨ ∃ c ∈ l, check_subdomain resolve c domain = some y := by
  intro l
  induction l with
  | nil => intro st y; simp
  | cons c l ih =>
    intro st y
    rw [List.foldl_cons, ih, mem_workerStep_found, List.exists_mem_cons_iff]
    tauto

theorem foldl_workerStep_nodup (resolve : ResolveOracle) (domain : String) :
    ∀ (l : List String) (st : ScanState), st.found.Nodup →
      ((l.foldl (workerStep resolve domain) st).found).Nodup := by
  intro l
  induction l with
  | nil => intro st h; exact h
  | cons c l ih =>
    intro st h
    exact ih _ (workerStep_found_nodup resolve domain st c h)

theorem foldl_workerStep_progress (resolve : ResolveOracle) (domain : String) :
    ∀ (l : List String) (st : ScanState),
      (l.foldl (workerStep resolve domain) st).progress = st.progress + l.length := by
  intro l
  induction l with
  | nil => intro st; rfl
  | cons c l ih =>
    intro st
    rw [List.foldl_cons, ih, workerStep_progress, List.length_cons]
    omega

/-! ### Characterisation of `scan_subdomains` -/

theorem scanFinalState_zero_threads (resolve : ResolveOracle) (domain : String)
    (wordlist : List String) : scanFinalState resolve domain wordlist 0 = none := by
  simp [scanFinalState]

theorem scanFinalState_nil (resolve : ResolveOracle) (domain : String) (W : Nat) :
    scanFinalState resolve domain [] W = none := by
  unfold scanFinalState
  by_cases hW : W = 0
  · simp [hW]
  · simp [hW, Nat.div_eq_of_lt (show W - 1 < W by omega)]

theorem scanFinalState_eq (resolve : ResolveOracle) (domain : String)
    (wordlist : List String) (W : Nat) (hW : 1 ≤ W) (hl : wordlist ≠ []) :
    scanFinalState resolve domain wordlist W =
      some (wordlist.foldl (workerStep resolve domain) { found := [], progress := 0 }) := by
  have hN : 1 ≤ wordlist.length := List.length_pos_of_ne_nil hl
  have hcs : 1 ≤ (wordlist.length + W - 1) / W := chunkSize_pos wordlist.length W hW hN
  unfold scanFinalState
  rw [if_neg (by omega), if_neg (by omega)]
  congr 1
  simp only [runWorker]
  rw [← List.foldl_flatten]
  rw [show listChunks ((wordlist.length + W - 1) / W) wordlist =
        chunksFuel ((wordlist.length + W - 1) / W) wordlist.length wordlist from rfl]
  rw [chunksFuel_flatten _ hcs wordlist.length wordlist (Nat.le_refl _)]

theorem scan_subdomains_eq_specExpected (resolve : ResolveOracle) (domain : String)
    (wordlist : List String) (W : Nat) (hW : 1 ≤ W) (hl : wordlist ≠ []) :
    scan_subdomains resolve domain wordlist W = some (specExpected resolve domain wordlist) := by
  unfold scan_subdomains
  rw [scanFinalState_eq resolve domain wordlist W hW hl]
  rw [Option.map_some']
  congr 1
  apply sortDomains_eq_of_perm
  apply List.perm_of_nodup_nodup_toFinset_eq
  · exact foldl_workerStep_nodup resolve domain wordlist _ List.nodup_nil
  · exact List.nodup_dedup _
  · ext y
    simp only [List.mem_toFinset, List.mem_dedup, List.mem_map, List.mem_filter,
      foldl_workerStep_mem, List.not_mem_nil, false_or]
    constructor
    · rintro ⟨c, hc, hcheck⟩
      rcases (check_subdomain_eq_some resolve c domain y).mp hcheck with ⟨hres, rfl⟩
      exact ⟨c, ⟨hc, hres⟩, rfl⟩
    · rintro ⟨c, ⟨hc, hres⟩, rfl⟩
      exact ⟨c, hc, (check_subdomain_eq_some resolve c domain _).mpr ⟨hres, rfl⟩⟩

/-- With a positive chunk size the chunks concatenate back to the list. -/
theorem listChunks_flatten (k : Nat) (hk : 1 ≤ k) (l : List String) :
    (listChunks k l).flatten = l :=
  chunksFuel_flatten k hk l.length l (Nat.le_refl _)

/-- Number of lists is at most the length of the concatenation when every list
is non-empty. -/
theorem length_le_flatten_length (L : List (List String)) (h : ∀ c ∈ L, c ≠ []) :
    L.length ≤ L.flatten.length := by
  induction L with
  | nil => exact Nat.le_refl 0
  | cons c L ih =>
    simp only [List.length_cons, List.flatten_cons, List.length_append]
    have h1 : 1 ≤ c.length := List.length_pos_of_ne_nil (h c (List.mem_cons_self c L))
    have h2 := ih (fun d hd => h d (List.mem_cons_of_mem c hd))
    omega

/-! ### The claims -/

/-- C1, counterexample to the claim as stated: at the empty candidate list the
claim fails — `scan_subdomains` hits the `slice::chunks` panic
(`chunk_size = 0`), modelled as `none`, instead of returning the empty sorted
sequence derived from S. -/
theorem C1_counterexample :
    scan_subdomains testOracle "example.com" ([] : List String) 1 = none ∧
      specExpected testOracle "example.com" ([] : List String) = [] :=
  ⟨by decide, by decide⟩

/-- C1 (amended to non-empty candidate lists): for every domain, every
non-empty candidate list and every worker count W ≥ 1, with a deterministic
resolution oracle, `scan_subdomains` returns exactly the lexicographically
sorted, duplicate-free sequence of hostnames `candidate ++ "." ++ domain` of
the resolvable candidates; the right-hand side does not mention W, so the
worker count does not affect the returned set. -/
theorem C1_aggregation_correctness (resolve : ResolveOracle) (domain : String)
    (candidates : List String) (W : Nat) (hW : 1 ≤ W) (hne : candidates ≠ []) :
    scan_subdomains resolve domain candidates W =
      some (specExpected resolve domain candidates) :=
  scan_subdomains_eq_specExpected resolve domain candidates W hW hne

/-- Witness for C1 at a concrete oracle, candidate list and worker count. -/
theorem C1_witness :
    1 ≤ 2 ∧ (["www", "mail", "doesnotexist123"] : List String) ≠ [] ∧
      scan_subdomains testOracle "example.com" ["www", "mail", "doesnotexist123"] 2 =
        some (specExpected testOracle "example.com" ["www", "mail", "doesnotexist123"]) ∧
      specExpected testOracle "example.com" ["www", "mail", "doesnotexist123"] =
        ["mail.example.com", "www.example.com"] :=
  ⟨by decide, by decide,
    C1_aggregation_correctness testOracle "example.com" ["www", "mail", "doesnotexist123"] 2
      (by decide) (by decide),
    by decide⟩

/-- C2: the claim is right and the code is wrong — on an empty candidate list
`scan_subdomains` computes `chunk_size = 0` and `slice::chunks` panics
("chunk size must be non-zero"), modelled as `none`, instead of completing
with an empty result as the spec requires.  This theorem evaluates the code at
the failing input. -/
theorem C2_empty_input_panics :
    scanFinalState testOracle "example.com" ([] : List String) 3 = none ∧
      scan_subdomains testOracle "example.com" ([] : List String) 3 = none :=
  ⟨by decide, by decide⟩

/-- C3, counterexample to the claim as stated: `max_threads = 0` is not
clamped to 1 — the run with 0 panics (division by zero computing
`chunk_size`), modelled as `none`, while the run with 1 returns a result. -/
theorem C3_counterexample :
    scan_subdomains testOracle "example.com" ["www"] 0 = none ∧
      scan_subdomains testOracle "example.com" ["www"] 1 = some ["www.example.com"] :=
  ⟨by decide, by decide⟩

/-- C3 (amended): calling `scan_subdomains` with worker count 0 is not
corrected to 1; the chunk-size computation divides by zero and the call
panics (modelled as `none`) for every domain and candidate list. -/
theorem C3_zero_threads_panics (resolve : ResolveOracle) (domain : String)
    (wordlist : List String) : scan_subdomains resolve domain wordlist 0 = none := by
  unfold scan_subdomains
  rw [scanFinalState_zero_threads]
  rfl

/-- C4: for every candidate list of length ≥ 1 and worker count W ≥ 1, the
chunks of size ⌈N / W⌉ concatenate back to the original candidate sequence
exactly — same order, nothing omitted, nothing duplicated, each candidate in
exactly one chunk. -/
theorem C4_partition_completeness (wordlist : List String) (W : Nat)
    (hN : 1 ≤ wordlist.length) (hW : 1 ≤ W) :
    (listChunks ((wordlist.length + W - 1) / W) wordlist).flatten = wordlist :=
  listChunks_flatten _ (chunkSize_pos wordlist.length W hW hN) wordlist

/-- Witness for C4 at a concrete list and worker count. -/
theorem C4_witness :
    1 ≤ (["a", "b", "c", "d", "e"] : List String).length ∧ 1 ≤ 2 ∧
      (listChunks (((["a", "b", "c", "d", "e"] : List String).length + 2 - 1) / 2)
          ["a", "b", "c", "d", "e"]).flatten = ["a", "b", "c", "d", "e"] :=
  ⟨by decide, by decide,
    C4_partition_completeness ["a", "b", "c", "d", "e"] 2 (by decide) (by decide)⟩

/-- C5: for every candidate list of length N ≥ 1 and worker count W ≥ 1, with
chunk size cs = ⌈N / W⌉: every chunk is non-empty and at most cs long, every
chunk except possibly the last is exactly cs long, the number of chunks is at
most min N W, and when W ≥ N every chunk has exactly one candidate. -/
theorem C5_partition_boundedness (wordlist : List String) (W : Nat)
    (hN : 1 ≤ wordlist.length) (hW : 1 ≤ W) :
    (∀ c ∈ listChunks ((wordlist.length + W - 1) / W) wordlist,
        c ≠ [] ∧ c.length ≤ (wordlist.length + W - 1) / W) ∧
      (∀ c ∈ (listChunks ((wordlist.length + W - 1) / W) wordlist).dropLast,
        c.length = (wordlist.length + W - 1) / W) ∧
      (listChunks ((wordlist.length + W - 1) / W) wordlist).length ≤
        min wordlist.length W ∧
      (wordlist.length ≤ W →
        ∀ c ∈ listChunks ((wordlist.length + W - 1) / W) wordlist, c.length = 1) := by
  have hcs1 : 1 ≤ (wordlist.length + W - 1) / W := chunkSize_pos wordlist.length W hW hN
  refine ⟨?_, ?_, ?_, ?_⟩
  · intro c hc
    exact chunksFuel_mem _ hcs1 wordlist.length wordlist c (Nat.le_refl _) hc
  · intro c hc
    exact chunksFuel_dropLast _ hcs1 wordlist.length wordlist c (Nat.le_refl _) hc
  · refine le_min ?_ ?_
    · have hmem : ∀ c ∈ listChunks ((wordlist.length + W - 1) / W) wordlist, c ≠ [] :=
        fun c hc => (chunksFuel_mem _ hcs1 wordlist.length wordlist c (Nat.le_refl _) hc).1
      have h1 := length_le_flatten_length _ hmem
      rw [listChunks_flatten _ hcs1] at h1
      exact h1
    · apply chunksFuel_count_le _ hcs1 wordlist.length W wordlist (Nat.le_refl _)
      calc wordlist.length ≤ W * ((wordlist.length + W - 1) / W) :=
            le_mul_ceilDiv wordlist.length W hW
        _ = ((wordlist.length + W - 1) / W) * W := Nat.mul_comm _ _
  · intro hNW c hc
    have hcs_eq : (wordlist.length + W - 1) / W = 1 := by
      have h2 : wordlist.length + W - 1 = (wordlist.length - 1) + W := by omega
      rw [h2, Nat.add_div_right _ (by omega), Nat.div_eq_of_lt (by omega)]
    rcases chunksFuel_mem _ hcs1 wordlist.length wordlist c (Nat.le_refl _) hc with ⟨hne, hlen⟩
    have := List.length_pos_of_ne_nil hne
    omega

/-- Witness for C5 at a concrete list and worker count (chunk-count bound
conjunct). -/
theorem C5_witness :
    1 ≤ (["a", "b", "c", "d", "e"] : List String).length ∧ 1 ≤ 2 ∧
      (listChunks (((["a", "b", "c", "d", "e"] : List String).length + 2 - 1) / 2)
          ["a", "b", "c", "d", "e"]).length ≤
        min (["a", "b", "c", "d", "e"] : List String).length 2 :=
  ⟨by decide, by decide,
    (C5_partition_boundedness ["a", "b", "c", "d", "e"] 2 (by decide) (by decide)).2.2.1⟩

/-- C6: `check_subdomain` joins candidate and domain with a single `"."`,
returns exactly that hostname when the oracle yields at least one address for
it, returns `none` on any resolution error, and never produces anything other
than these two outcomes (no fatal error reaches the caller). -/
theorem C6_check_subdomain (resolve : ResolveOracle) (subdomain domain : String) :
    (∀ addrs : List String, addrs ≠ [] →
        resolve ((subdomain ++ "." ++ domain) ++ ":80") = some addrs →
        check_subdomain resolve subdomain domain = some (subdomain ++ "." ++ domain)) ∧
      (resolve ((subdomain ++ "." ++ domain) ++ ":80") = none →
        check_subdomain resolve subdomain domain = none) ∧
      (check_subdomain resolve subdomain domain = none ∨
        check_subdomain resolve subdomain domain = some (subdomain ++ "." ++ domain)) := by
  refine ⟨?_, ?_, ?_⟩
  · intro addrs _ h
    simp [check_subdomain, h]
  · intro h
    simp [check_subdomain, h]
  · cases h : resolve ((subdomain ++ "." ++ domain) ++ ":80") with
    | none => exact Or.inl (by simp [check_subdomain, h])
    | some addrs => exact Or.inr (by simp [check_subdomain, h])

/-- Witness for C6 at a concrete oracle, candidate and domain. -/
theorem C6_witness :
    (["93.184.216.34:80"] : List String) ≠ [] ∧
      testOracle (("www" ++ "." ++ "example.com") ++ ":80") = some ["93.184.216.34:80"] ∧
      check_subdomain testOracle "www" "example.com" = some ("www" ++ "." ++ "example.com") :=
  ⟨by decide, by decide,
    (C6_check_subdomain testOracle "www" "example.com").1 ["93.184.216.34:80"]
      (by decide) (by decide)⟩

/-- C7: whenever a scan with worker count W ≥ 1 completes (returns a final
state instead of panicking), the progress counter equals the candidate count
exactly; and each processed candidate increments the counter by exactly one,
whatever the resolution outcome, so the counter only ever increases. -/
theorem C7_progress_totality (resolve : ResolveOracle) (domain : String)
    (wordlist : List String) (W : Nat) (hW : 1 ≤ W) :
    (∀ st : ScanState, scanFinalState resolve domain wordlist W = some st →
        st.progress = wordlist.length) ∧
      (∀ (st : ScanState) (c : String),
        (workerStep resolve domain st c).progress = st.progress + 1) := by
  constructor
  · intro st hst
    by_cases hl : wordlist = []
    · rw [hl, scanFinalState_nil] at hst
      exact absurd hst (by simp)
    · rw [scanFinalState_eq resolve domain wordlist W hW hl] at hst
      have heq := Option.some.inj hst
      rw [← heq, foldl_workerStep_progress]
      simp
  · exact workerStep_progress resolve domain

/-- Witness for C7 at a concrete completed scan. -/
theorem C7_witness :
    1 ≤ 2 ∧
      scanFinalState testOracle "example.com" ["www", "mail", "doesnotexist123"] 2 =
        some { found := ["www.example.com", "mail.example.com"], progress := 3 } ∧
      ({ found := ["www.example.com", "mail.example.com"], progress := 3 } : ScanState).progress =
        (["www", "mail", "doesnotexist123"] : List String).length :=
  ⟨by decide, by decide,
    (C7_progress_totality testOracle "example.com" ["www", "mail", "doesnotexist123"] 2
        (by decide)).1
      { found := ["www.example.com", "mail.example.com"], progress := 3 } (by decide)⟩

/-- C8: with the same oracle, domain and candidates, two runs return identical
result sequences whatever their worker counts; the result is invariant under
every reordering of the processing schedule (covering all interleavings); and
any returned sequence is sorted lexicographically ascending. -/
theorem C8_determinism (resolve : ResolveOracle) (domain : String)
    (candidates : List String) :
    (∀ W₁ W₂ : Nat, 1 ≤ W₁ → 1 ≤ W₂ →
        scan_subdomains resolve domain candidates W₁ =
          scan_subdomains resolve domain candidates W₂) ∧
      (∀ s₁ s₂ : List String, s₁.Perm s₂ →
        scanScheduleResult resolve domain s₁ = scanScheduleResult resolve domain s₂) ∧
      (∀ (W : Nat) (r : List String), scan_subdomains resolve domain candidates W = some r →
        List.Sorted (fun a b => strLe a b = true) r) := by
  refine ⟨?_, ?_, ?_⟩
  · intro W₁ W₂ h₁ h₂
    by_cases hl : candidates = []
    · unfold scan_subdomains
      rw [hl, scanFinalState_nil, scanFinalState_nil]
    · rw [scan_subdomains_eq_specExpected resolve domain candidates W₁ h₁ hl,
        scan_subdomains_eq_specExpected resolve domain candidates W₂ h₂ hl]
  · intro s₁ s₂ hperm
    unfold scanScheduleResult
    apply sortDomains_eq_of_perm
    apply List.perm_of_nodup_nodup_toFinset_eq
    · exact foldl_workerStep_nodup resolve domain s₁ _ List.nodup_nil
    · exact foldl_workerStep_nodup resolve domain s₂ _ List.nodup_nil
    · ext y
      simp only [List.mem_toFinset, foldl_workerStep_mem, List.not_mem_nil, false_or]
      constructor
      · rintro ⟨c, hc, hcheck⟩
        exact ⟨c, hperm.mem_iff.mp hc, hcheck⟩
      · rintro ⟨c, hc, hcheck⟩
        exact ⟨c, hperm.mem_iff.mpr hc, hcheck⟩
  · intro W r hr
    unfold scan_subdomains at hr
    cases hst : scanFinalState resolve domain candidates W with
    | none => rw [hst] at hr; exact absurd hr (by simp)
    | some st =>
      rw [hst, Option.map_some'] at hr
      have heq := Option.some.inj hr
      rw [← heq]
      exact sortDomains_sorted st.found

/-- Witness for C8: equal outputs for worker counts 1 and 3, schedule
invariance for a transposed schedule, and sortedness of a returned result. -/
theorem C8_witness :
    (1 ≤ 1 ∧ 1 ≤ 3 ∧
        scan_subdomains testOracle "example.com" ["www", "mail"] 1 =
          scan_subdomains testOracle "example.com" ["www", "mail"] 3) ∧
      ((["mail", "www"] : List String).Perm ["www", "mail"] ∧
        scanScheduleResult testOracle "example.com" ["mail", "www"] =
          scanScheduleResult testOracle "example.com" ["www", "mail"]) ∧
      (scan_subdomains testOracle "example.com" ["www", "mail"] 3 =
          some ["mail.example.com", "www.example.com"] ∧
        List.Sorted (fun a b => strLe a b = true) ["mail.example.com", "www.example.com"]) :=
  ⟨⟨by decide, by decide,
      (C8_determinism testOracle "example.com" ["www", "mail"]).1 1 3 (by decide) (by decide)⟩,
    ⟨by decide,
      (C8_determinism testOracle "example.com" ["www", "mail"]).2.1 ["mail", "www"]
        ["www", "mail"] (by decide)⟩,
    ⟨by decide,
      (C8_determinism testOracle "example.com" ["www", "mail"]).2.2 3
        ["mail.example.com", "www.example.com"] (by decide)⟩⟩

/-- C9: the shared result collection obeys set semantics — an insertion step
keeps it duplicate-free and only grows its membership — and duplicate
candidates collapse: scanning ["www", "www", "mail"] against example.com with
only www resolvable returns exactly ["www.example.com"], for every worker
count W ≥ 1. -/
theorem C9_set_semantics :
    (∀ (resolve : ResolveOracle) (domain : String) (st : ScanState) (c : String),
        (st.found.Nodup → (workerStep resolve domain st c).found.Nodup) ∧
          st.found ⊆ (workerStep resolve domain st c).found) ∧
      (∀ W : Nat, 1 ≤ W →
        scan_subdomains wwwOnlyOracle "example.com" ["www", "www", "mail"] W =
          some ["www.example.com"]) := by
  constructor
  · intro resolve domain st c
    exact ⟨workerStep_found_nodup resolve domain st c, workerStep_found_subset resolve domain st c⟩
  · intro W hW
    rw [scan_subdomains_eq_specExpected wwwOnlyOracle "example.com" ["www", "www", "mail"] W hW
      (by decide)]
    decide

/-- Witness for C9 at a concrete worker count and a concrete insertion step. -/
theorem C9_witness :
    1 ≤ 2 ∧
      scan_subdomains wwwOnlyOracle "example.com" ["www", "www", "mail"] 2 =
        some ["www.example.com"] ∧
      (["a.example.com"] : List String).Nodup ∧
      (workerStep wwwOnlyOracle "example.com"
          { found := ["a.example.com"], progress := 1 } "www").found.Nodup ∧
      ({ found := ["a.example.com"], progress := 1 } : ScanState).found ⊆
        (workerStep wwwOnlyOracle "example.com"
          { found := ["a.example.com"], progress := 1 } "www").found :=
  ⟨by decide, C9_set_semantics.2 2 (by decide), by decide,
    (C9_set_semantics.1 wwwOnlyOracle "example.com"
        { found := ["a.example.com"], progress := 1 } "www").1 (by decide),
    (C9_set_semantics.1 wwwOnlyOracle "example.com"
        { found := ["a.example.com"], progress := 1 } "www").2⟩

/-- C10: with N ≥ 1 candidates and requested worker count W ≥ 1 and
cs = ⌈N / W⌉, exactly ⌈N / cs⌉ worker threads are spawned, one per non-empty
chunk; at N = 45, W = 10 only 9 threads are spawned. -/
theorem C10_thread_count (wordlist : List String) (W : Nat)
    (hN : 1 ≤ wordlist.length) (hW : 1 ≤ W) :
    spawnedThreads wordlist W =
        some ((wordlist.length + (wordlist.length + W - 1) / W - 1) /
          ((wordlist.length + W - 1) / W)) ∧
      (∀ c ∈ listChunks ((wordlist.length + W - 1) / W) wordlist, c ≠ []) ∧
      spawnedThreads (List.replicate 45 "x") 10 = some 9 := by
  have hcs1 : 1 ≤ (wordlist.length + W - 1) / W := chunkSize_pos wordlist.length W hW hN
  refine ⟨?_, ?_, by decide⟩
  · simp only [spawnedThreads]
    rw [if_neg (by omega), if_neg (by omega)]
    congr 1
    exact chunksFuel_length _ hcs1 wordlist.length wordlist (Nat.le_refl _)
  · intro c hc
    exact (chunksFuel_mem _ hcs1 wordlist.length wordlist c (Nat.le_refl _) hc).1

/-- Witness for C10 at 45 candidates and 10 requested workers. -/
theorem C10_witness :
    1 ≤ (List.replicate 45 "x" : List String).length ∧ 1 ≤ 10 ∧
      spawnedThreads (List.replicate 45 "x") 10 =
        some (((List.replicate 45 "x" : List String).length +
            ((List.replicate 45 "x" : List String).length + 10 - 1) / 10 - 1) /
          (((List.replicate 45 "x" : List String).length + 10 - 1) / 10)) :=
  ⟨by decide, by decide,
    (C10_thread_count (List.replicate 45 "x") 10 (by decide) (by decide)).1⟩

end SubCrawler
